import Mathlib

/-!
Verification of the Mandelbrot rendering engine in src/main.rs.

Shallow embedding conventions:
* f32 and f64 values are modelled by exact rationals (ℚ); the claims under
  study are about control flow, classification, indexing and algebraic
  structure, and every concrete input used below only involves values on
  which the f32/f64 computations are exact (small dyadic rationals), so the
  exact-arithmetic model coincides with the machine computation there.
* machine integers (u32, usize) are modelled by ℕ; no computation below
  approaches an overflow boundary.
* the global configuration constants of the source are kept as definitions
  and the functions are parameterised on them, mirroring how the source
  reads WIDTH, HEIGHT, NUM_THREADS and LIMIT inside render and
  render_parallel.
-/

namespace Mandelbrot

/-- Source constant WIDTH (src/main.rs line 25). -/
def WIDTH : ℕ := 1024

/-- Source constant HEIGHT (src/main.rs line 26). -/
def HEIGHT : ℕ := 768

/-- Source constant LIMIT (src/main.rs line 27). -/
def LIMIT : ℕ := 100

/-- Source constant NUM_THREADS (src/main.rs line 28). -/
def NUM_THREADS : ℕ := 4

/-- Source constant COLORS (src/main.rs lines 29-33), the palette control
points as (r, g, b) triples. -/
def COLORS : List (ℚ × ℚ × ℚ) :=
  [(0, 7, 100), (32, 107, 203), (237, 255, 255), (255, 170, 0), (0, 2, 0)]

/-- Embedding of pixel_to_point (src/main.rs lines 51-62).  bounds and pixel
are (width, height) and (column, row) pairs; the two complex corners are
(re, im) pairs of rationals standing for the f64 values. -/
def pixel_to_point (bounds pixel : ℕ × ℕ) (upper_left lower_right : ℚ × ℚ) : ℚ × ℚ :=
  let width : ℚ := lower_right.1 - upper_left.1
  let height : ℚ := upper_left.2 - lower_right.2
  (upper_left.1 + (pixel.1 : ℚ) * width / (bounds.1 : ℚ),
   upper_left.2 - (pixel.2 : ℚ) * height / (bounds.2 : ℚ))

/-- The ViewportMapper formula exactly as the specification states it
(spec section 4.1), written independently of pixel_to_point so that the two
can be compared (claim C6). -/
def pixel_to_point_spec (bounds pixel : ℕ × ℕ) (upper_left lower_right : ℚ × ℚ) : ℚ × ℚ :=
  (upper_left.1 + (pixel.1 : ℚ) * (lower_right.1 - upper_left.1) / (bounds.1 : ℚ),
   upper_left.2 - (pixel.2 : ℚ) * (upper_left.2 - lower_right.2) / (bounds.2 : ℚ))

/-- One update of the escape-time recurrence on one lane: from (x, y) and the
input point (cx, cy) compute (x*x - y*y + cx, x*y + x*y + cy), exactly the
lane-wise arithmetic of src/main.rs lines 70-78. -/
def qstep (cx cy x y : ℚ) : ℚ × ℚ := (x * x - y * y + cx, x * y + x * y + cy)

/-- State of the vector kernel loop of mandelbrot_vector: the four x lanes,
the four y lanes and the four iteration counters. -/
structure VecState where
  x : Fin 4 → ℚ
  y : Fin 4 → ℚ
  count : Fin 4 → ℕ

/-- The per-lane escape test quantity xx + yy (src/main.rs line 73). -/
def lsum (s : VecState) (j : Fin 4) : ℚ := s.x j * s.x j + s.y j * s.y j

/-- One iteration of the mandelbrot_vector loop body on all four lanes
(src/main.rs lines 70-78): each counter gains 1 exactly on the lanes whose
sum is still below 4, and x, y are updated on every lane. -/
def vecStep (c_x c_y : Fin 4 → ℚ) (s : VecState) : VecState where
  x := fun j => (qstep (c_x j) (c_y j) (s.x j) (s.y j)).1
  y := fun j => (qstep (c_x j) (c_y j) (s.x j) (s.y j)).2
  count := fun j => s.count j + if lsum s j < 4 then 1 else 0

/-- Initial state of mandelbrot_vector (src/main.rs lines 66-68):
x = c_x, y = c_y, count = 0. -/
def initState (c_x c_y : Fin 4 → ℚ) : VecState := ⟨c_x, c_y, fun _ => 0⟩

/-- The mandelbrot_vector loop (src/main.rs lines 69-79) with the given fuel:
before each iteration, if no lane satisfies sum < 4 the loop breaks
(the !mask.any() test of line 75), otherwise one vecStep runs. -/
def go (c_x c_y : Fin 4 → ℚ) : ℕ → VecState → VecState
  | 0, s => s
  | n + 1, s => if ∀ j, ¬ lsum s j < 4 then s else go c_x c_y n (vecStep c_x c_y s)

/-- The kernel state after running the mandelbrot_vector loop for at most n
iterations from the initial state. -/
def vecRun (c_x c_y : Fin 4 → ℚ) (n : ℕ) : VecState := go c_x c_y n (initState c_x c_y)

/-- Embedding of mandelbrot_vector (src/main.rs lines 65-81): the four
per-lane iteration counts after at most max_iter loop iterations. -/
def mandelbrot_vector (c_x c_y : Fin 4 → ℚ) (max_iter : ℕ) : Fin 4 → ℕ :=
  (go c_x c_y max_iter (initState c_x c_y)).count

/-- The orbit of the recurrence checked by the kernels: orbit c 0 = c and
orbit c (n+1) = (orbit c n)^2 + c componentwise.  Starting the iteration
z ← z^2 + c from z = 0, the value after n+1 updates is orbit c n, which is
exactly the sequence of values the kernels test against the threshold. -/
def orbit (cx cy : ℚ) : ℕ → ℚ × ℚ
  | 0 => (cx, cy)
  | n + 1 => qstep cx cy (orbit cx cy n).1 (orbit cx cy n).2

/-- Squared magnitude of the n-th tested orbit point of c. -/
def osq (cx cy : ℚ) (n : ℕ) : ℚ :=
  (orbit cx cy n).1 * (orbit cx cy n).1 + (orbit cx cy n).2 * (orbit cx cy n).2

/-- Modelled from the spec (section 3, IterationResult): either escaped at
iteration i, or bounded, meaning the limit was reached without escaping.
The source has no such type; mandelbrot_vector encodes the same information
as a count that equals the limit exactly on bounded points. -/
inductive IterationResult where
  | escaped (i : ℕ)
  | bounded
deriving DecidableEq

/-- Interpretation of a kernel count as an IterationResult, following the
spec's data model: a count below the limit is the escape iteration, a count
equal to the limit means bounded. -/
def classify (u limit : ℕ) : IterationResult :=
  if u < limit then .escaped u else .bounded

/-- Modelled from the spec (section 4.2, scalar kernel, absent from src):
iterate z ← z^2 + c starting from z = 0, up to the remaining fuel; after each
update test the spec's strict escape condition |z|^2 > 4.0 and report the
0-based index i of the first test that passes.  The index convention (the
first test, at z = c, is iteration 0) is fixed by the spec's own fixed-point
table, which has c = 2+0i escaping at iteration 0. -/
def scalar_go (cx cy x y : ℚ) (i : ℕ) : ℕ → IterationResult
  | 0 => .bounded
  | fuel + 1 =>
    if 4 < (qstep cx cy x y).1 * (qstep cx cy x y).1 +
           (qstep cx cy x y).2 * (qstep cx cy x y).2 then
      .escaped i
    else scalar_go cx cy (qstep cx cy x y).1 (qstep cx cy x y).2 (i + 1) fuel

/-- Modelled from the spec: the scalar escape-time kernel with the spec's
strict threshold |z|^2 > 4.0. -/
def mandelbrot_scalar (cx cy : ℚ) (limit : ℕ) : IterationResult :=
  scalar_go cx cy 0 0 0 limit

/-- The scalar kernel with the non-strict escape test 4 ≤ |z|^2, i.e. the
exact negation of the vector kernel's continue mask sum < 4.0
(src/main.rs line 74).  This is the variant under which scalar and vector
kernels agree bit for bit (claim C1, amended). -/
def scalar_ge_go (cx cy x y : ℚ) (i : ℕ) : ℕ → IterationResult
  | 0 => .bounded
  | fuel + 1 =>
    if 4 ≤ (qstep cx cy x y).1 * (qstep cx cy x y).1 +
           (qstep cx cy x y).2 * (qstep cx cy x y).2 then
      .escaped i
    else scalar_ge_go cx cy (qstep cx cy x y).1 (qstep cx cy x y).2 (i + 1) fuel

/-- The scalar kernel with the non-strict escape test (see scalar_ge_go). -/
def mandelbrot_scalar_ge (cx cy : ℚ) (limit : ℕ) : IterationResult :=
  scalar_ge_go cx cy 0 0 0 limit

/-- rows_per_band = bounds.1 / NUM_THREADS + 1 (src/main.rs line 126),
parameterised on the worker count. -/
def rowsPerBand (height T : ℕ) : ℕ := height / T + 1

/-- Start index of the i-th chunk produced by chunks_mut(s)
(src/main.rs line 128). -/
def chunkStart (s i : ℕ) : ℕ := s * i

/-- Length of the i-th chunk produced by chunks_mut(s) on a buffer of
length L: s for every chunk but possibly the last, which gets the
remainder. -/
def chunkLen (L s i : ℕ) : ℕ := min s (L - s * i)

/-- Number of chunks produced by chunks_mut(s) on a buffer of length L. -/
def numChunks (L s : ℕ) : ℕ := (L + s - 1) / s

/-- width_step of render (src/main.rs line 95): note the divisor is the
global WIDTH, passed here as the parameter W. -/
def wstepOf (ulre lrre : ℚ) (W : ℕ) : ℚ := (lrre - ulre) / (W : ℚ)

/-- height_step of render (src/main.rs line 96): the divisor is the f32
quotient HEIGHT / NUM_THREADS of the global constants, passed here as H and
T, not anything derived from the band actually being rendered. -/
def hstepOf (ulim lrim : ℚ) (H T : ℕ) : ℚ := (lrim - ulim) / ((H : ℚ) / (T : ℚ))

/-- The y value splatted for a row of render (src/main.rs line 100). -/
def yOf (ulim lrim : ℚ) (H T row : ℕ) : ℚ := ulim + hstepOf ulim lrim H T * (row : ℚ)

/-- Lane j of the x vector of render (src/main.rs lines 97 and 102):
splat(left + width_step * column) + width_step * (0, 1, 2, 3). -/
def xlane (ulre lrre : ℚ) (W col : ℕ) (j : Fin 4) : ℚ :=
  ulre + wstepOf ulre lrre W * (col : ℚ) + wstepOf ulre lrre W * ((j : ℕ) : ℚ)

/-- The four iteration counts computed at one (row, column) group of render
(src/main.rs line 103). -/
def groupCounts (ulre ulim lrre lrim : ℚ) (W H T limit row col : ℕ) : Fin 4 → ℕ :=
  mandelbrot_vector (fun j => xlane ulre lrre W col j) (fun _ => yOf ulim lrim H T row) limit

/-- The column values visited by (0 .. w).step_by(4) (src/main.rs line 101):
0, 4, 8, ..., one group per started block of 4 columns. -/
def cols (w : ℕ) : List ℕ := (List.range ((w + 3) / 4)).map (fun g => 4 * g)

/-- One store pixels[i] = v, modelling the buffer as a function from linear
index to packed color. -/
def writePix (buf : ℕ → ℕ) (i v : ℕ) : ℕ → ℕ := fun t => if t = i then v else buf t

/-- Embedding of the palette interpolation of render (src/main.rs lines
104-117) as a function of the extracted per-lane count: val = (n mod 12) *
len / 12, indices left and right, fraction p, channel-wise linear
interpolation truncated to integers, packed as (r << 16) + (g << 8) + b.
Truncation of the nonnegative channel values is Int.floor followed by toNat.
The f32 computation is exact on the mod-12 reduction for every count the
program can produce (counts never exceed the u32 limit argument, far below
2^24). -/
def colorOf (n : ℕ) : ℕ :=
  let val : ℚ := ((n % 12 : ℕ) : ℚ) * ((COLORS.length : ℕ) : ℚ) / 12
  let lidx : ℕ := val.floor.toNat % COLORS.length
  let ridx : ℕ := (lidx + 1) % COLORS.length
  let p : ℚ := val - (lidx : ℚ)
  let cl := COLORS.getD lidx (0, 0, 0)
  let cr := COLORS.getD ridx (0, 0, 0)
  let r : ℕ := (cl.1 + (cr.1 - cl.1) * p).floor.toNat
  let g : ℕ := (cl.2.1 + (cr.2.1 - cl.2.1) * p).floor.toNat
  let b : ℕ := (cl.2.2 + (cr.2.2 - cl.2.2) * p).floor.toNat
  r * 65536 + g * 256 + b

/-- Embedding of render (src/main.rs lines 84-121) acting on a buffer slice
that starts at linear offset off inside the global buffer: for every row of
the band, every column group of 4, and every k in 0..4, store the palette
color of the k-th lane count at off + row * bounds.1 + col + k.  bounds is
the (width, height) of the slice being rendered; W, H, T are the global
WIDTH, HEIGHT, NUM_THREADS read by render for its step computations, and
limit is the global LIMIT passed to mandelbrot_vector. -/
def render (buf : ℕ → ℕ) (off : ℕ) (bounds : ℕ × ℕ) (ulre ulim lrre lrim : ℚ)
    (W H T limit : ℕ) : ℕ → ℕ :=
  List.foldl
    (fun b row =>
      List.foldl
        (fun b2 col =>
          List.foldl
            (fun b3 k =>
              writePix b3 (off + row * bounds.1 + col + (k : ℕ))
                (colorOf (groupCounts ulre ulim lrre lrim W H T limit row col k)))
            b2 [(0 : Fin 4), 1, 2, 3])
        b (cols bounds.1))
    buf (List.range bounds.2)

/-- Embedding of render_parallel (src/main.rs lines 123-141) on a zeroed
global buffer of length W * H (the lazy_static GlobalBuffer): split the
buffer into chunks of rows_per_band * W entries, and render each chunk with
its sub-viewport computed by pixel_to_point at rows top and top + height.
The workers write to disjoint chunks, so the sequential fold represents any
interleaving of the concurrent writes. -/
def render_parallel (W H T limit : ℕ) (ulre ulim lrre lrim : ℚ) : ℕ → ℕ :=
  List.foldl
    (fun b i =>
      render b (chunkStart (rowsPerBand H T * W) i)
        (W, chunkLen (W * H) (rowsPerBand H T * W) i / W)
        (pixel_to_point (W, H) (0, rowsPerBand H T * i) (ulre, ulim) (lrre, lrim)).1
        (pixel_to_point (W, H) (0, rowsPerBand H T * i) (ulre, ulim) (lrre, lrim)).2
        (pixel_to_point (W, H)
          (W, rowsPerBand H T * i + chunkLen (W * H) (rowsPerBand H T * W) i / W)
          (ulre, ulim) (lrre, lrim)).1
        (pixel_to_point (W, H)
          (W, rowsPerBand H T * i + chunkLen (W * H) (rowsPerBand H T * W) i / W)
          (ulre, ulim) (lrre, lrim)).2
        W H T limit)
    (fun _ => 0) (List.range (numChunks (W * H) (rowsPerBand H T * W)))

/-- The slice-relative linear indices written by the per-band pixel loop of
render (src/main.rs lines 99-120) on a band of the given width and height:
row * w + col + k for each row, each visited column and k in 0..4. -/
def renderIndices (w h : ℕ) : List ℕ :=
  (List.range h).flatMap fun row =>
    (cols w).flatMap fun col =>
      [row * w + col + 0, row * w + col + 1, row * w + col + 2, row * w + col + 3]

/-! Batteries marks the rational-number operations irreducible; restore
reducibility so that concrete runs of the embedded functions can be checked
by kernel reduction. -/
unseal Rat.add Rat.sub Rat.mul Rat.inv

set_option maxRecDepth 40000

/-- C6: pixel_to_point is total and pure by construction, and for positive
bounds it returns exactly the affine formulas
re = ul.re + col * (lr.re - ul.re) / width and
im = ul.im - row * (ul.im - lr.im) / height stated by the spec. -/
theorem c6_pixel_to_point_matches_spec (bounds pixel : ℕ × ℕ) (ul lr : ℚ × ℚ)
    (hW : 0 < bounds.1) (hH : 0 < bounds.2) :
    pixel_to_point bounds pixel ul lr = pixel_to_point_spec bounds pixel ul lr := rfl

/-- Witness for C6 at bounds (2, 3), pixel (1, 1). -/
theorem c6_witness :
    0 < (2, 3).1 ∧ 0 < (2, 3).2 ∧
      pixel_to_point (2, 3) (1, 1) ((0 : ℚ), (1 : ℚ)) ((1 : ℚ), (0 : ℚ)) =
        pixel_to_point_spec (2, 3) (1, 1) ((0 : ℚ), (1 : ℚ)) ((1 : ℚ), (0 : ℚ)) :=
  ⟨by decide, by decide,
    c6_pixel_to_point_matches_spec (2, 3) (1, 1) (0, 1) (1, 0) (by decide) (by decide)⟩

/-- C7: for positive bounds, mapping pixel (0, 0) gives the viewport's upper
left corner and mapping pixel (width, height) gives its lower right corner
exactly. -/
theorem c7_corner_round_trip (W H : ℕ) (ul lr : ℚ × ℚ) (hW : 0 < W) (hH : 0 < H) :
    pixel_to_point (W, H) (0, 0) ul lr = ul ∧
    pixel_to_point (W, H) (W, H) ul lr = lr := by
  have hW' : (W : ℚ) ≠ 0 := Nat.cast_ne_zero.2 hW.ne'
  have hH' : (H : ℚ) ≠ 0 := Nat.cast_ne_zero.2 hH.ne'
  unfold pixel_to_point
  constructor
  · simp
  · have h1 : ul.1 + (W : ℚ) * (lr.1 - ul.1) / (W : ℚ) = lr.1 := by
      field_simp
    have h2 : ul.2 - (H : ℚ) * (ul.2 - lr.2) / (H : ℚ) = lr.2 := by
      field_simp
    simp only [h1, h2]

/-- Witness for C7 at bounds (2, 2) and the viewport with corners (0, 1) and
(1, 0). -/
theorem c7_witness :
    pixel_to_point (2, 2) (0, 0) ((0 : ℚ), (1 : ℚ)) ((1 : ℚ), (0 : ℚ)) = ((0 : ℚ), (1 : ℚ)) ∧
    pixel_to_point (2, 2) (2, 2) ((0 : ℚ), (1 : ℚ)) ((1 : ℚ), (0 : ℚ)) = ((1 : ℚ), (0 : ℚ)) :=
  c7_corner_round_trip 2 2 (0, 1) (1, 0) (by decide) (by decide)

/-- C9: the palette mapper is periodic in the iteration count with period 12:
adding any multiple of 12 to the count does not change the packed color. -/
theorem c9_palette_periodic (i k : ℕ) : colorOf (i + 12 * k) = colorOf i := by
  unfold colorOf
  rw [Nat.add_mul_mod_self_left]

/-- C10: with width a positive multiple of 4, every index written by the
per-band pixel loop lies inside the slice of length width * height and inside
its own row. -/
theorem c10_write_indices_safe (w h i : ℕ) (hw : 4 ∣ w) (hi : i ∈ renderIndices w h) :
    i < w * h ∧ ∃ row col k, row < h ∧ col ∈ cols w ∧ k < 4 ∧
      i = row * w + col + k ∧ row * w ≤ i ∧ i < (row + 1) * w := by
  obtain ⟨q, hq⟩ := hw
  simp only [renderIndices, List.mem_flatMap, List.mem_range] at hi
  obtain ⟨row, hrow, col, hcol, hmem⟩ := hi
  have hcol' : col + 4 ≤ w := by
    simp only [cols, List.mem_map, List.mem_range] at hcol
    obtain ⟨g, hg, rfl⟩ := hcol
    omega
  have hc : col ∈ cols w := hcol
  simp only [List.mem_cons, List.not_mem_nil, or_false] at hmem
  have key : ∀ k, k < 4 → i = row * w + col + k →
      i < w * h ∧ ∃ row' col' k', row' < h ∧ col' ∈ cols w ∧ k' < 4 ∧
        i = row' * w + col' + k' ∧ row' * w ≤ i ∧ i < (row' + 1) * w := by
    intro k hk hik
    have h1 : row * w + col + k < (row + 1) * w := by
      have : (row + 1) * w = row * w + w := by ring
      omega
    have h2 : (row + 1) * w ≤ h * w := Nat.mul_le_mul_right _ (by omega)
    refine ⟨?_, row, col, k, hrow, hc, hk, hik, by omega, by omega⟩
    have : w * h = h * w := Nat.mul_comm _ _
    omega
  rcases hmem with rfl | rfl | rfl | rfl
  · exact key 0 (by omega) rfl
  · exact key 1 (by omega) rfl
  · exact key 2 (by omega) rfl
  · exact key 3 (by omega) rfl

/-- Witness for C10 on a band of width 4 and height 2, at the written index
1 * 4 + 0 + 2. -/
theorem c10_witness :
    6 < 4 * 2 ∧ ∃ row col k, row < 2 ∧ col ∈ cols 4 ∧ k < 4 ∧
      6 = row * 4 + col + k ∧ row * 4 ≤ 6 ∧ 6 < (row + 1) * 4 :=
  c10_write_indices_safe 4 2 6 (by decide) (by decide)

/-- Ceiling division is unchanged when numerator and divisor are scaled by
the same positive factor: the chunk count over W*H entries with chunks of
r*W entries equals the chunk count over H rows with bands of r rows. -/
theorem numChunks_mul_left (W a b : ℕ) (hW : 0 < W) (hb : 0 < b) :
    numChunks (W * a) (W * b) = numChunks a b := by
  unfold numChunks
  have hdm := Nat.div_add_mod (a + b - 1) b
  have hmlt : (a + b - 1) % b < b := Nat.mod_lt _ hb
  generalize hq : (a + b - 1) / b = q at hdm ⊢
  generalize hm : (a + b - 1) % b = m at hdm hmlt
  have hlow' : b * q + 1 ≤ a + b := by omega
  have hhigh' : a + b ≤ b * q + b := by omega
  have k1 : W * (b * q + 1) ≤ W * (a + b) := Nat.mul_le_mul_left _ hlow'
  have k2 : W * (b * q + 1) = W * (b * q) + W := by ring
  have k3 : W * (a + b) = W * a + W * b := by ring
  have k4 : q * (W * b) = W * (b * q) := by ring
  have k5 : W * (a + b) ≤ W * (b * q + b) := Nat.mul_le_mul_left _ hhigh'
  have k6 : W * (b * q + b) = q * (W * b) + W * b := by ring
  have k7 : (q + 1) * (W * b) = q * (W * b) + W * b := by ring
  have hWb : 0 < W * b := Nat.mul_pos hW hb
  have hle : q * (W * b) ≤ W * a + W * b - 1 := by omega
  have hlt : W * a + W * b - 1 < (q + 1) * (W * b) := by omega
  exact Nat.div_eq_of_lt_le hle hlt

/-- C5: for positive width and worker count, chunks_mut with chunk size
rows_per_band * width yields exactly the ceiling of height / rows_per_band
bands, every buffer index lies in exactly one band, and every band starts
and ends on a whole-row boundary. -/
theorem c5_bands_partition (W H T : ℕ) (hW : 0 < W) (hT : 0 < T) :
    numChunks (W * H) (rowsPerBand H T * W) =
      (H + rowsPerBand H T - 1) / rowsPerBand H T ∧
    (∀ idx, idx < W * H → ∃! i,
      i < numChunks (W * H) (rowsPerBand H T * W) ∧
      chunkStart (rowsPerBand H T * W) i ≤ idx ∧
      idx < chunkStart (rowsPerBand H T * W) i +
        chunkLen (W * H) (rowsPerBand H T * W) i) ∧
    (∀ i, W ∣ chunkStart (rowsPerBand H T * W) i ∧
      W ∣ chunkLen (W * H) (rowsPerBand H T * W) i) := by
  have hr : 0 < rowsPerBand H T := Nat.succ_pos _
  have hs : 0 < rowsPerBand H T * W := Nat.mul_pos hr hW
  refine ⟨?_, ?_, ?_⟩
  · rw [Nat.mul_comm (rowsPerBand H T) W]
    exact numChunks_mul_left W H (rowsPerBand H T) hW hr
  · intro idx hidx
    have hdm := Nat.div_add_mod idx (rowsPerBand H T * W)
    have hmlt : idx % (rowsPerBand H T * W) < rowsPerBand H T * W := Nat.mod_lt _ hs
    have hnb : idx / (rowsPerBand H T * W) < numChunks (W * H) (rowsPerBand H T * W) := by
      have h1 : idx / (rowsPerBand H T * W) ≤ (W * H - 1) / (rowsPerBand H T * W) :=
        Nat.div_le_div_right (by omega)
      have h2 : (W * H - 1 + rowsPerBand H T * W) / (rowsPerBand H T * W)
          = (W * H - 1) / (rowsPerBand H T * W) + 1 := Nat.add_div_right _ hs
      have h3 : W * H + rowsPerBand H T * W - 1 = W * H - 1 + rowsPerBand H T * W := by
        omega
      unfold numChunks
      rw [h3, h2]
      omega
    refine ⟨idx / (rowsPerBand H T * W), ⟨hnb, ?_, ?_⟩, ?_⟩
    · show chunkStart (rowsPerBand H T * W) (idx / (rowsPerBand H T * W)) ≤ idx
      simp only [chunkStart]
      omega
    · simp only [chunkStart, chunkLen]
      omega
    · intro i hi
      obtain ⟨hinb, hile, hilt⟩ := hi
      simp only [chunkStart, chunkLen] at hile hilt
      have k8 : i * (rowsPerBand H T * W) = rowsPerBand H T * W * i := by ring
      have k9 : (i + 1) * (rowsPerBand H T * W) = rowsPerBand H T * W * i + rowsPerBand H T * W := by
        ring
      have h1 : i * (rowsPerBand H T * W) ≤ idx := by omega
      have h2 : idx < (i + 1) * (rowsPerBand H T * W) := by omega
      have := Nat.div_eq_of_lt_le h1 h2
      omega
  · intro i
    constructor
    · exact ⟨rowsPerBand H T * i, by simp only [chunkStart]; ring⟩
    · have h1 : W ∣ rowsPerBand H T * W := ⟨rowsPerBand H T, by ring⟩
      have h2 : W ∣ W * H := ⟨H, rfl⟩
      have h3 : W ∣ rowsPerBand H T * W * i := h1.mul_right i
      have h4 : W ∣ W * H - rowsPerBand H T * W * i := Nat.dvd_sub' h2 h3
      rcases Nat.le_total (rowsPerBand H T * W) (W * H - rowsPerBand H T * W * i) with hmin | hmin
      · rw [chunkLen, Nat.min_eq_left hmin]; exact h1
      · rw [chunkLen, Nat.min_eq_right hmin]; exact h4

/-- Witness for C5 at width 4, height 8 and 8 workers. -/
theorem c5_witness :
    numChunks (4 * 8) (rowsPerBand 8 8 * 4) =
      (8 + rowsPerBand 8 8 - 1) / rowsPerBand 8 8 ∧
    (∀ idx, idx < 4 * 8 → ∃! i,
      i < numChunks (4 * 8) (rowsPerBand 8 8 * 4) ∧
      chunkStart (rowsPerBand 8 8 * 4) i ≤ idx ∧
      idx < chunkStart (rowsPerBand 8 8 * 4) i +
        chunkLen (4 * 8) (rowsPerBand 8 8 * 4) i) ∧
    (∀ i, 4 ∣ chunkStart (rowsPerBand 8 8 * 4) i ∧
      4 ∣ chunkLen (4 * 8) (rowsPerBand 8 8 * 4) i) :=
  c5_bands_partition 4 8 8 (by decide) (by decide)

/-! Arithmetic core for escape monotonicity.  Writing N = x*x + y*y,
M = cx*cx + cy*cy and C for the cross term, one loop update sends N to
N*N + C + M, and C*C ≤ 4*(N*N)*M by the Lagrange identity. -/

/-- Expansion of the squared magnitude after one recurrence update. -/
theorem nextN_eq (x y cx cy : ℚ) :
    (x * x - y * y + cx) * (x * x - y * y + cx) +
      (x * y + x * y + cy) * (x * y + x * y + cy)
    = (x * x + y * y) * (x * x + y * y) +
        2 * ((x * x - y * y) * cx + (x * y + x * y) * cy) + (cx * cx + cy * cy) := by
  ring

/-- Lagrange identity bound on the cross term. -/
theorem cross_sq_le (x y cx cy : ℚ) :
    (2 * ((x * x - y * y) * cx + (x * y + x * y) * cy)) *
      (2 * ((x * x - y * y) * cx + (x * y + x * y) * cy))
    ≤ 4 * ((x * x + y * y) * (x * x + y * y)) * (cx * cx + cy * cy) := by
  nlinarith [sq_nonneg ((x * x - y * y) * cy - (x * y + x * y) * cx)]

/-- Scalar form of escape preservation: if N ≥ 4 and either M ≤ 4 or M ≤ N,
the updated squared magnitude N*N + C + M is still at least 4. -/
theorem escape_scalar (N M C : ℚ) (hN : 4 ≤ N) (hM : 0 ≤ M)
    (hC : C * C ≤ 4 * (N * N) * M) (hc : M ≤ 4 ∨ M ≤ N) : 4 ≤ N * N + C + M := by
  have hD : 16 * M ≤ (N * N - M - 4) * (N * N - M - 4) := by
    rcases hc with h | h
    · have h16 : 16 ≤ N * N := by nlinarith
      nlinarith [sq_nonneg (N * N - M - 12)]
    · have hNN : 0 ≤ N * (N - 4) := mul_nonneg (by linarith) (by linarith)
      have hD3 : 3 * N - 4 ≤ N * N - M - 4 := by nlinarith
      have hfac : 0 ≤ (N - 4) * (9 * N - 4) := mul_nonneg (by linarith) (by linarith)
      have hprod : 0 ≤ (N * N - M - 4 - (3 * N - 4)) * (N * N - M - 4 + (3 * N - 4)) :=
        mul_nonneg (by linarith) (by linarith)
      nlinarith [hprod, hfac]
  have hB : C * C ≤ (N * N + M - 4) * (N * N + M - 4) := by nlinarith
  have hBnn : 0 ≤ N * N + M - 4 := by nlinarith
  nlinarith [hB, hBnn, sq_nonneg (N * N + M - 4 + C)]

/-- Scalar form of the norm invariant: when 4 < M ≤ N, the updated squared
magnitude stays at least M. -/
theorem inv_scalar (N M C : ℚ) (hM4 : 4 < M) (hMN : M ≤ N)
    (hC : C * C ≤ 4 * (N * N) * M) : M ≤ N * N + C + M := by
  have h1 : 4 * M ≤ N * N := by
    nlinarith [mul_nonneg (sub_nonneg.2 hMN) (by linarith : (0 : ℚ) ≤ N),
      mul_nonneg (by linarith : (0 : ℚ) ≤ M) (by linarith : (0 : ℚ) ≤ N - 4)]
  have h2 : C * C ≤ (N * N) * (N * N) := by
    nlinarith [mul_nonneg (mul_self_nonneg N) (sub_nonneg.2 h1)]
  nlinarith [h2, sq_nonneg (N * N + C), mul_self_nonneg N]

/-- Once a lane's squared magnitude reaches 4, one more update keeps it at
least 4, provided the input point satisfies M ≤ 4 or M ≤ N. -/
theorem escape_step (x y cx cy : ℚ) (hN : 4 ≤ x * x + y * y)
    (hc : cx * cx + cy * cy ≤ 4 ∨ cx * cx + cy * cy ≤ x * x + y * y) :
    4 ≤ (x * x - y * y + cx) * (x * x - y * y + cx) +
          (x * y + x * y + cy) * (x * y + x * y + cy) := by
  rw [nextN_eq]
  exact escape_scalar (x * x + y * y) (cx * cx + cy * cy)
    (2 * ((x * x - y * y) * cx + (x * y + x * y) * cy)) hN
    (add_nonneg (mul_self_nonneg cx) (mul_self_nonneg cy))
    (cross_sq_le x y cx cy) hc

/-- The invariant M ≤ N is preserved by one update when 4 < M. -/
theorem inv_step (x y cx cy : ℚ) (hM4 : 4 < cx * cx + cy * cy)
    (hMN : cx * cx + cy * cy ≤ x * x + y * y) :
    cx * cx + cy * cy ≤ (x * x - y * y + cx) * (x * x - y * y + cx) +
          (x * y + x * y + cy) * (x * y + x * y + cy) := by
  rw [nextN_eq]
  exact inv_scalar (x * x + y * y) (cx * cx + cy * cy)
    (2 * ((x * x - y * y) * cx + (x * y + x * y) * cy)) hM4 hMN (cross_sq_le x y cx cy)

/-- Along the orbit of c, when 4 < M the squared magnitude never drops below
M. -/
theorem orbit_inv (cx cy : ℚ) (h : 4 < cx * cx + cy * cy) :
    ∀ n, cx * cx + cy * cy ≤ osq cx cy n := by
  intro n
  induction n with
  | zero => simp only [osq, orbit]; exact le_refl _
  | succ n ih =>
    have := inv_step (orbit cx cy n).1 (orbit cx cy n).2 cx cy h (by
      simpa only [osq] using ih)
    simpa only [osq, orbit, qstep] using this

/-- Along the orbit, the escape condition 4 ≤ osq is preserved by one step. -/
theorem osq_esc_succ (cx cy : ℚ) (n : ℕ) (h : 4 ≤ osq cx cy n) :
    4 ≤ osq cx cy (n + 1) := by
  rcases le_or_lt (cx * cx + cy * cy) 4 with hM | hM
  · have := escape_step (orbit cx cy n).1 (orbit cx cy n).2 cx cy
      (by simpa only [osq] using h) (Or.inl hM)
    simpa only [osq, orbit, qstep] using this
  · have := escape_step (orbit cx cy n).1 (orbit cx cy n).2 cx cy
      (by simpa only [osq] using h) (Or.inr (orbit_inv cx cy hM n))
    simpa only [osq, orbit, qstep] using this

/-- Escape is monotone along the orbit: once 4 ≤ osq at step n it holds at
every later step.  This is the no-reactivation property of the kernel. -/
theorem osq_esc_mono (cx cy : ℚ) {n m : ℕ} (hnm : n ≤ m) (h : 4 ≤ osq cx cy n) :
    4 ≤ osq cx cy m := by
  induction m with
  | zero => have : n = 0 := by omega
            rw [this] at h; exact h
  | succ m ih =>
    rcases Nat.lt_or_ge n (m + 1) with hlt | hge
    · exact osq_esc_succ cx cy m (ih (by omega))
    · have : n = m + 1 := by omega
      rw [this] at h; exact h

/-- A fully escaped state is a fixed point of the kernel loop. -/
theorem go_of_allEsc (c_x c_y : Fin 4 → ℚ) {s : VecState}
    (h : ∀ j, ¬ lsum s j < 4) : ∀ n, go c_x c_y n s = s := by
  intro n
  cases n with
  | zero => rfl
  | succ n => simp only [go, if_pos h]

/-- Splitting the fuel of the kernel loop. -/
theorem go_add (c_x c_y : Fin 4 → ℚ) (a b : ℕ) (s : VecState) :
    go c_x c_y (a + b) s = go c_x c_y b (go c_x c_y a s) := by
  induction a generalizing s with
  | zero => rw [Nat.zero_add]; rfl
  | succ a ih =>
    have e : a + 1 + b = (a + b) + 1 := by omega
    rw [e]
    by_cases h : ∀ j, ¬ lsum s j < 4
    · calc go c_x c_y (a + b + 1) s = s := by simp only [go, if_pos h]
        _ = go c_x c_y b s := (go_of_allEsc c_x c_y h b).symm
        _ = go c_x c_y b (go c_x c_y (a + 1) s) := by
            rw [go_of_allEsc c_x c_y h (a + 1)]
    · have h1 : go c_x c_y (a + b + 1) s = go c_x c_y (a + b) (vecStep c_x c_y s) := by
        simp only [go, if_neg h]
      have h2 : go c_x c_y (a + 1) s = go c_x c_y a (vecStep c_x c_y s) := by
        simp only [go, if_neg h]
      rw [h1, ih (vecStep c_x c_y s), h2]

/-- The x and y lanes of the unbroken iteration follow the per-lane orbit. -/
theorem iterate_xy (c_x c_y : Fin 4 → ℚ) :
    ∀ (t : ℕ) (j : Fin 4),
      ((vecStep c_x c_y)^[t] (initState c_x c_y)).x j = (orbit (c_x j) (c_y j) t).1 ∧
      ((vecStep c_x c_y)^[t] (initState c_x c_y)).y j = (orbit (c_x j) (c_y j) t).2 := by
  intro t
  induction t with
  | zero => intro j; exact ⟨rfl, rfl⟩
  | succ t ih =>
    intro j
    obtain ⟨hx, hy⟩ := ih j
    rw [Function.iterate_succ_apply']
    constructor
    · show (qstep (c_x j) (c_y j)
          (((vecStep c_x c_y)^[t] (initState c_x c_y)).x j)
          (((vecStep c_x c_y)^[t] (initState c_x c_y)).y j)).1 = _
      rw [hx, hy]
      rfl
    · show (qstep (c_x j) (c_y j)
          (((vecStep c_x c_y)^[t] (initState c_x c_y)).x j)
          (((vecStep c_x c_y)^[t] (initState c_x c_y)).y j)).2 = _
      rw [hx, hy]
      rfl

/-- The escape test of a lane of the unbroken iteration is the orbit test. -/
theorem iterate_lsum (c_x c_y : Fin 4 → ℚ) (t : ℕ) (j : Fin 4) :
    lsum ((vecStep c_x c_y)^[t] (initState c_x c_y)) j = osq (c_x j) (c_y j) t := by
  obtain ⟨hx, hy⟩ := iterate_xy c_x c_y t j
  simp only [lsum, hx, hy, osq]

/-- The counter of a lane of the unbroken iteration counts the orbit indices
below t that are still under the threshold. -/
theorem iterate_count (c_x c_y : Fin 4 → ℚ) :
    ∀ (t : ℕ) (j : Fin 4),
      ((vecStep c_x c_y)^[t] (initState c_x c_y)).count j
        = ((Finset.range t).filter (fun k => osq (c_x j) (c_y j) k < 4)).card := by
  intro t
  induction t with
  | zero => intro j; simp [initState]
  | succ t ih =>
    intro j
    rw [Function.iterate_succ_apply']
    have hls := iterate_lsum c_x c_y t j
    show ((vecStep c_x c_y)^[t] (initState c_x c_y)).count j +
        (if lsum ((vecStep c_x c_y)^[t] (initState c_x c_y)) j < 4 then 1 else 0) = _
    rw [ih j, hls, Finset.range_succ, Finset.filter_insert]
    by_cases h : osq (c_x j) (c_y j) t < 4
    · rw [if_pos h, if_pos h, Finset.card_insert_of_not_mem (by simp)]
    · rw [if_neg h, if_neg h, add_zero]

/-- Running the kernel loop executes some number t ≤ n of unbroken steps, and
if it stopped early then every lane had escaped at the stopping state. -/
theorem go_decomp (c_x c_y : Fin 4 → ℚ) :
    ∀ (n : ℕ) (s : VecState), ∃ t, t ≤ n ∧ go c_x c_y n s = (vecStep c_x c_y)^[t] s ∧
      (t < n → ∀ j, ¬ lsum ((vecStep c_x c_y)^[t] s) j < 4) := by
  intro n
  induction n with
  | zero => intro s; exact ⟨0, le_refl 0, rfl, fun h => absurd h (by omega)⟩
  | succ n ih =>
    intro s
    by_cases h : ∀ j, ¬ lsum s j < 4
    · exact ⟨0, Nat.zero_le _, by simp only [go, if_pos h]; rfl, fun _ => h⟩
    · obtain ⟨t, ht, heq, hbr⟩ := ih (vecStep c_x c_y s)
      refine ⟨t + 1, Nat.succ_le_succ ht, ?_, ?_⟩
      · calc go c_x c_y (n + 1) s = go c_x c_y n (vecStep c_x c_y s) := by
              simp only [go, if_neg h]
          _ = (vecStep c_x c_y)^[t] (vecStep c_x c_y s) := heq
          _ = (vecStep c_x c_y)^[t + 1] s := (Function.iterate_succ_apply _ _ _).symm
      · intro hlt j
        rw [Function.iterate_succ_apply]
        exact hbr (Nat.lt_of_succ_lt_succ hlt) j

/-- Characterisation of the per-lane count of mandelbrot_vector: it is at
most the limit, every earlier orbit index is under the threshold, and when
it is below the limit the orbit point it names is at or past the
threshold. -/
theorem vecCountSpec (c_x c_y : Fin 4 → ℚ) (L : ℕ) (j : Fin 4) :
    mandelbrot_vector c_x c_y L j ≤ L ∧
    (∀ k, k < mandelbrot_vector c_x c_y L j → osq (c_x j) (c_y j) k < 4) ∧
    (mandelbrot_vector c_x c_y L j < L →
      4 ≤ osq (c_x j) (c_y j) (mandelbrot_vector c_x c_y L j)) := by
  obtain ⟨t, htL, heq, hbr⟩ := go_decomp c_x c_y L (initState c_x c_y)
  have hu : mandelbrot_vector c_x c_y L j
      = ((Finset.range t).filter (fun k => osq (c_x j) (c_y j) k < 4)).card := by
    unfold mandelbrot_vector
    rw [heq, iterate_count]
  set u := mandelbrot_vector c_x c_y L j with hudef
  have hut : u ≤ t := by
    rw [hu]
    exact le_trans (Finset.card_filter_le _ _) (by simp)
  have hpre : ∀ k, k < u → osq (c_x j) (c_y j) k < 4 := by
    intro k hk
    by_contra hesc
    push_neg at hesc
    have hsub : (Finset.range t).filter (fun k => osq (c_x j) (c_y j) k < 4)
        ⊆ Finset.range k := by
      intro i hi
      rw [Finset.mem_filter, Finset.mem_range] at hi
      rw [Finset.mem_range]
      by_contra hik
      push_neg at hik
      exact absurd hi.2 (not_lt.2 (osq_esc_mono (c_x j) (c_y j) hik hesc))
    have hcard := Finset.card_le_card hsub
    rw [Finset.card_range, ← hu] at hcard
    omega
  refine ⟨le_trans hut htL, hpre, ?_⟩
  intro huL
  by_contra hact
  push_neg at hact
  rcases lt_or_eq_of_le hut with hutlt | huteq
  · have hsub : Finset.range (u + 1)
        ⊆ (Finset.range t).filter (fun k => osq (c_x j) (c_y j) k < 4) := by
      intro i hi
      rw [Finset.mem_range] at hi
      rw [Finset.mem_filter, Finset.mem_range]
      refine ⟨by omega, ?_⟩
      rcases Nat.lt_or_ge i u with h | h
      · exact hpre i h
      · have : i = u := by omega
        rw [this]
        exact hact
    have hcard := Finset.card_le_card hsub
    rw [Finset.card_range, ← hu] at hcard
    omega
  · have hbreak := hbr (by omega) j
    rw [iterate_lsum, ← huteq] at hbreak
    exact hbreak hact

/-- C2 (amended): for every lane of every input and every limit, the kernel
count u is at most the limit, all orbit points tested before index u have
squared magnitude strictly below 4, and an escaped lane (u < limit) names
the first orbit index with squared magnitude at least 4 — that is, the
escape condition is the non-strict 4 ≤ osq, not the spec's strict 4 < osq,
and the count equals the limit exactly on bounded lanes. -/
theorem c2_first_escape_index (c_x c_y : Fin 4 → ℚ) (L : ℕ) (j : Fin 4) :
    mandelbrot_vector c_x c_y L j ≤ L ∧
    (∀ k, k < mandelbrot_vector c_x c_y L j → osq (c_x j) (c_y j) k < 4) ∧
    (mandelbrot_vector c_x c_y L j < L →
      4 ≤ osq (c_x j) (c_y j) (mandelbrot_vector c_x c_y L j)) :=
  vecCountSpec c_x c_y L j

/-- Counterexample to C2 as stated: at c = 2+0i with limit 2 the kernel
reports escape at iteration 0, but the first tested value has squared
magnitude exactly 4, which is not strictly above 4.0; the strictly-above
condition first holds at index 1. -/
theorem c2_counterexample :
    mandelbrot_vector (fun _ => 2) (fun _ => 0) 2 0 = 0 ∧
    ¬ 4 < osq 2 0 0 ∧ 4 < osq 2 0 1 :=
  ⟨by decide, by decide, by decide⟩

/-- Witness for C2 at c = 3+0i with limit 2 in lane 0. -/
theorem c2_witness :
    mandelbrot_vector (fun _ => 3) (fun _ => 0) 2 0 ≤ 2 ∧
    (∀ k, k < mandelbrot_vector (fun _ => 3) (fun _ => 0) 2 0 → osq 3 0 k < 4) ∧
    (mandelbrot_vector (fun _ => 3) (fun _ => 0) 2 0 < 2 →
      4 ≤ osq 3 0 (mandelbrot_vector (fun _ => 3) (fun _ => 0) 2 0)) :=
  c2_first_escape_index (fun _ => 3) (fun _ => 0) 2 0

/-- Two counts satisfying the first-escape characterisation for the same
point and limit are equal. -/
theorem countChar_unique (cx cy : ℚ) (L u v : ℕ)
    (hu1 : u ≤ L) (hu2 : ∀ k, k < u → osq cx cy k < 4) (hu3 : u < L → 4 ≤ osq cx cy u)
    (hv1 : v ≤ L) (hv2 : ∀ k, k < v → osq cx cy k < 4) (hv3 : v < L → 4 ≤ osq cx cy v) :
    u = v := by
  by_contra hne
  rcases Nat.lt_or_ge u v with h | h
  · exact absurd (hu3 (by omega)) (not_le.2 (hv2 u h))
  · have h' : v < u := by omega
    exact absurd (hv3 (by omega)) (not_le.2 (hu2 v h'))

/-- The non-strict scalar kernel loop, started at state z with one update
pending at orbit index i and fuel L - i, returns exactly the classification
of any count satisfying the first-escape characterisation. -/
theorem scalar_ge_go_eq (cx cy : ℚ) (L u : ℕ)
    (h1 : u ≤ L) (h2 : ∀ k, k < u → osq cx cy k < 4) (h3 : u < L → 4 ≤ osq cx cy u) :
    ∀ (fuel i : ℕ) (x y : ℚ), fuel + i = L →
      qstep cx cy x y = orbit cx cy i →
      (∀ k, k < i → osq cx cy k < 4) →
      scalar_ge_go cx cy x y i fuel = classify u L := by
  intro fuel
  induction fuel with
  | zero =>
    intro i x y hfi hqs hpre
    have huL : u = L := by
      by_contra hne
      have hult : u < L := by omega
      exact absurd (h3 hult) (not_le.2 (hpre u (by omega)))
    show IterationResult.bounded = classify u L
    rw [classify, if_neg (by omega)]
  | succ fuel ih =>
    intro i x y hfi hqs hpre
    have hosq : osq cx cy i
        = (qstep cx cy x y).1 * (qstep cx cy x y).1 +
          (qstep cx cy x y).2 * (qstep cx cy x y).2 := by
      rw [osq, hqs]
    by_cases hesc : 4 ≤ (qstep cx cy x y).1 * (qstep cx cy x y).1 +
        (qstep cx cy x y).2 * (qstep cx cy x y).2
    · have hosq4 : 4 ≤ osq cx cy i := by rw [hosq]; exact hesc
      have hui : u = i :=
        countChar_unique cx cy L u i h1 h2 h3 (by omega) hpre (fun _ => hosq4)
      simp only [scalar_ge_go, if_pos hesc]
      rw [classify, if_pos (by omega), hui]
    · push_neg at hesc
      have hact : osq cx cy i < 4 := by rw [hosq]; exact hesc
      have hstep : qstep cx cy (qstep cx cy x y).1 (qstep cx cy x y).2
          = orbit cx cy (i + 1) := by
        show _ = qstep cx cy (orbit cx cy i).1 (orbit cx cy i).2
        rw [← hqs]
      have hpre' : ∀ k, k < i + 1 → osq cx cy k < 4 := by
        intro k hk
        rcases Nat.lt_or_ge k i with h | h
        · exact hpre k h
        · have : k = i := by omega
          rw [this]; exact hact
      simp only [scalar_ge_go, if_neg (not_le.2 hesc)]
      exact ih (i + 1) _ _ (by omega) hstep hpre'

/-- C1 (amended): with the scalar kernel's escape test taken as the
non-strict 4 ≤ osq (the exact negation of the vector kernel's continue
mask), the scalar and vector kernels agree bit for bit on classification
for every input carried in any lane and every limit. -/
theorem c1_scalar_vector_agree (c_x c_y : Fin 4 → ℚ) (L : ℕ) (j : Fin 4) :
    classify (mandelbrot_vector c_x c_y L j) L = mandelbrot_scalar_ge (c_x j) (c_y j) L := by
  obtain ⟨h1, h2, h3⟩ := vecCountSpec c_x c_y L j
  unfold mandelbrot_scalar_ge
  refine (scalar_ge_go_eq (c_x j) (c_y j) L _ h1 h2 h3 L 0 0 0 (by omega) ?_ ?_).symm
  · show qstep (c_x j) (c_y j) 0 0 = (c_x j, c_y j)
    simp [qstep]
  · intro k hk
    exact absurd hk (Nat.not_lt_zero k)

/-- Counterexample to C1 as stated: with the spec's strict escape test the
scalar kernel reports escape at iteration 1 for c = 2+0i (since the squared
magnitude is exactly 4 at index 0), while the vector kernel's lane reports
escape at iteration 0. -/
theorem c1_counterexample :
    classify (mandelbrot_vector (fun _ => 2) (fun _ => 0) 2 0) 2
      ≠ mandelbrot_scalar 2 0 2 := by decide

/-- Reachability invariant of the kernel loop: on every state the loop can
reach, any lane whose input point has squared magnitude above 4 keeps its
lane magnitude at least that of its input point. -/
def Good (c_x c_y : Fin 4 → ℚ) (s : VecState) : Prop :=
  ∀ j, 4 < c_x j * c_x j + c_y j * c_y j → c_x j * c_x j + c_y j * c_y j ≤ lsum s j

/-- The initial state satisfies the invariant. -/
theorem good_init (c_x c_y : Fin 4 → ℚ) : Good c_x c_y (initState c_x c_y) :=
  fun j _ => le_refl _

/-- One loop iteration preserves the invariant. -/
theorem good_step (c_x c_y : Fin 4 → ℚ) {s : VecState} (h : Good c_x c_y s) :
    Good c_x c_y (vecStep c_x c_y s) := by
  intro j hM
  have := inv_step (s.x j) (s.y j) (c_x j) (c_y j) hM (h j hM)
  simpa only [lsum, vecStep, qstep] using this

/-- On invariant states, an escaped lane stays escaped after one more loop
iteration. -/
theorem esc_step_state (c_x c_y : Fin 4 → ℚ) {s : VecState} (hg : Good c_x c_y s)
    (j : Fin 4) (h : 4 ≤ lsum s j) : 4 ≤ lsum (vecStep c_x c_y s) j := by
  rcases le_or_lt (c_x j * c_x j + c_y j * c_y j) 4 with hM | hM
  · have := escape_step (s.x j) (s.y j) (c_x j) (c_y j) (by simpa only [lsum] using h)
      (Or.inl hM)
    simpa only [lsum, vecStep, qstep] using this
  · have := escape_step (s.x j) (s.y j) (c_x j) (c_y j) (by simpa only [lsum] using h)
      (Or.inr (hg j hM))
    simpa only [lsum, vecStep, qstep] using this

/-- The invariant is preserved by any number of loop iterations. -/
theorem good_go (c_x c_y : Fin 4 → ℚ) :
    ∀ (n : ℕ) (s : VecState), Good c_x c_y s → Good c_x c_y (go c_x c_y n s) := by
  intro n
  induction n with
  | zero => intro s hg; exact hg
  | succ n ih =>
    intro s hg
    by_cases h : ∀ j, ¬ lsum s j < 4
    · simpa only [go, if_pos h] using hg
    · simp only [go, if_neg h]
      exact ih _ (good_step c_x c_y hg)

/-- From an invariant state on which lane j has escaped, any further run of
the loop leaves lane j's counter unchanged and keeps the lane escaped. -/
theorem freeze_go (c_x c_y : Fin 4 → ℚ) (j : Fin 4) :
    ∀ (n : ℕ) (s : VecState), Good c_x c_y s → 4 ≤ lsum s j →
      (go c_x c_y n s).count j = s.count j ∧ 4 ≤ lsum (go c_x c_y n s) j := by
  intro n
  induction n with
  | zero => intro s hg h; exact ⟨rfl, h⟩
  | succ n ih =>
    intro s hg h
    by_cases hall : ∀ j, ¬ lsum s j < 4
    · rw [go_of_allEsc c_x c_y hall]
      exact ⟨rfl, h⟩
    · simp only [go, if_neg hall]
      have hnext := ih (vecStep c_x c_y s) (good_step c_x c_y hg)
        (esc_step_state c_x c_y hg j h)
      refine ⟨?_, hnext.2⟩
      rw [hnext.1]
      show s.count j + (if lsum s j < 4 then 1 else 0) = s.count j
      rw [if_neg (not_lt.2 h), Nat.add_zero]

/-- C8: once a lane of the vector kernel has reached the escape threshold at
some executed step, its counter never increases at any later step of the
run, while any lane still below the threshold at that step gains exactly one
increment on the next executed step. -/
theorem c8_lane_freeze (c_x c_y : Fin 4 → ℚ) (j : Fin 4) (n m : ℕ)
    (hnm : n ≤ m) (hesc : 4 ≤ lsum (vecRun c_x c_y n) j) :
    (vecRun c_x c_y m).count j = (vecRun c_x c_y n).count j ∧
    ∀ i, lsum (vecRun c_x c_y n) i < 4 →
      (vecRun c_x c_y (n + 1)).count i = (vecRun c_x c_y n).count i + 1 := by
  have hgood : Good c_x c_y (vecRun c_x c_y n) :=
    good_go c_x c_y n (initState c_x c_y) (good_init c_x c_y)
  constructor
  · have hm : m = n + (m - n) := by omega
    rw [hm]
    show (go c_x c_y (n + (m - n)) (initState c_x c_y)).count j = _
    rw [go_add]
    exact (freeze_go c_x c_y j (m - n) (vecRun c_x c_y n) hgood hesc).1
  · intro i hact
    have hnall : ¬ ∀ j, ¬ lsum (vecRun c_x c_y n) j < 4 := by
      intro hall
      exact hall i hact
    have h1 : vecRun c_x c_y (n + 1) = vecStep c_x c_y (vecRun c_x c_y n) := by
      show go c_x c_y (n + 1) (initState c_x c_y) = _
      rw [go_add]
      show go c_x c_y 1 (vecRun c_x c_y n) = _
      simp only [go, if_neg hnall]
    rw [h1]
    show (vecRun c_x c_y n).count i + (if lsum (vecRun c_x c_y n) i < 4 then 1 else 0)
        = (vecRun c_x c_y n).count i + 1
    rw [if_pos hact]

/-- Witness for C8: lane 0 of c = (3, 0, 0, 0) escapes at step 1 and its
counter is frozen through step 3, while the still-active lanes gain an
increment at step 2. -/
theorem c8_witness :
    (vecRun (fun i => if i = 0 then 3 else 0) (fun _ => 0) 3).count 0
        = (vecRun (fun i => if i = 0 then 3 else 0) (fun _ => 0) 1).count 0 ∧
    ∀ i, lsum (vecRun (fun i => if i = 0 then 3 else 0) (fun _ => 0) 1) i < 4 →
      (vecRun (fun i => if i = 0 then 3 else 0) (fun _ => 0) (1 + 1)).count i
        = (vecRun (fun i => if i = 0 then 3 else 0) (fun _ => 0) 1).count i + 1 :=
  c8_lane_freeze (fun i => if i = 0 then 3 else 0) (fun _ => 0) 0 1 3
    (by omega) (by decide)

/-- Value of a buffer after one 4-lane group of stores, at one of the four
written indices. -/
theorem group_get (b : ℕ → ℕ) (base : ℕ) (v : Fin 4 → ℕ) (k : Fin 4) :
    (List.foldl (fun b3 k' => writePix b3 (base + (k' : ℕ)) (v k')) b
      [(0 : Fin 4), 1, 2, 3]) (base + (k : ℕ)) = v k := by
  fin_cases k <;>
    (simp only [List.foldl_cons, List.foldl_nil, writePix]; norm_num; try rfl)

/-- A 4-lane group of stores does not change the buffer outside its four
indices. -/
theorem group_untouched (b : ℕ → ℕ) (base : ℕ) (v : Fin 4 → ℕ) (t : ℕ)
    (h : t < base ∨ base + 4 ≤ t) :
    (List.foldl (fun b3 k' => writePix b3 (base + (k' : ℕ)) (v k')) b
      [(0 : Fin 4), 1, 2, 3]) t = b t := by
  simp only [List.foldl_cons, List.foldl_nil, writePix]
  rw [if_neg (by omega), if_neg (by omega), if_neg (by omega), if_neg (by omega)]

/-- The column loop of a row whose base index lies beyond the target index
does not change the buffer there. -/
theorem colfold_untouched (off w rw' : ℕ) (v : ℕ → ℕ → Fin 4 → ℕ) (t : ℕ)
    (hbelow : t < off + rw' * w) :
    ∀ (m : ℕ) (b : ℕ → ℕ),
      (List.foldl (fun b2 col' =>
          List.foldl (fun b3 k' =>
              writePix b3 (off + rw' * w + col' + (k' : ℕ)) (v rw' col' k'))
            b2 [(0 : Fin 4), 1, 2, 3])
        b ((List.range m).map (fun gg => 4 * gg))) t = b t := by
  intro m
  induction m with
  | zero => intro b; rfl
  | succ m ih =>
    intro b
    rw [List.range_succ, List.map_append, List.foldl_append, List.map_cons,
      List.map_nil, List.foldl_cons, List.foldl_nil]
    rw [group_untouched _ (off + rw' * w + 4 * m) _ t (by omega)]
    exact ih b

/-- Column groups after the target group do not change the buffer at the
target index, so the column loop over any prefix length of at least g + 1
agrees with the loop stopped right after the target group. -/
theorem colfold_peel (off w row g : ℕ) (k : Fin 4) (v : ℕ → ℕ → Fin 4 → ℕ) :
    ∀ (m : ℕ) (b : ℕ → ℕ), g + 1 ≤ m →
      (List.foldl (fun b2 col' =>
          List.foldl (fun b3 k' =>
              writePix b3 (off + row * w + col' + (k' : ℕ)) (v row col' k'))
            b2 [(0 : Fin 4), 1, 2, 3])
        b ((List.range m).map (fun gg => 4 * gg))) (off + row * w + 4 * g + (k : ℕ))
      = (List.foldl (fun b2 col' =>
          List.foldl (fun b3 k' =>
              writePix b3 (off + row * w + col' + (k' : ℕ)) (v row col' k'))
            b2 [(0 : Fin 4), 1, 2, 3])
        b ((List.range (g + 1)).map (fun gg => 4 * gg))) (off + row * w + 4 * g + (k : ℕ)) := by
  intro m
  induction m with
  | zero => intro b hm; omega
  | succ m ih =>
    intro b hm
    rcases Nat.lt_or_ge (g + 1) (m + 1) with hlt | hge
    · rw [List.range_succ, List.map_append, List.foldl_append, List.map_cons,
        List.map_nil, List.foldl_cons, List.foldl_nil]
      have hkv : (k : ℕ) < 4 := k.isLt
      rw [group_untouched _ (off + row * w + 4 * m) _ _ (by omega)]
      exact ih b (by omega)
    · have : g + 1 = m + 1 := by omega
      rw [this]

/-- Rows after the target row do not change the buffer at the target index,
so the row loop over any height of at least row + 1 agrees with the loop
stopped right after the target row. -/
theorem rowfold_peel (off w row col : ℕ) (k : Fin 4) (v : ℕ → ℕ → Fin 4 → ℕ)
    (hin : col + (k : ℕ) < w) :
    ∀ (m : ℕ) (b : ℕ → ℕ), row + 1 ≤ m →
      (List.foldl (fun b0 r' =>
          List.foldl (fun b2 col' =>
              List.foldl (fun b3 k' =>
                  writePix b3 (off + r' * w + col' + (k' : ℕ)) (v r' col' k'))
                b2 [(0 : Fin 4), 1, 2, 3])
            b0 ((List.range ((w + 3) / 4)).map (fun gg => 4 * gg)))
        b (List.range m)) (off + row * w + col + (k : ℕ))
      = (List.foldl (fun b0 r' =>
          List.foldl (fun b2 col' =>
              List.foldl (fun b3 k' =>
                  writePix b3 (off + r' * w + col' + (k' : ℕ)) (v r' col' k'))
                b2 [(0 : Fin 4), 1, 2, 3])
            b0 ((List.range ((w + 3) / 4)).map (fun gg => 4 * gg)))
        b (List.range (row + 1))) (off + row * w + col + (k : ℕ)) := by
  intro m
  induction m with
  | zero => intro b hm; omega
  | succ m ih =>
    intro b hm
    rcases Nat.lt_or_ge (row + 1) (m + 1) with hlt | hge
    · rw [List.range_succ, List.foldl_append, List.foldl_cons, List.foldl_nil]
      have hmul : row * w + w ≤ m * w := by
        have h1 : (row + 1) * w ≤ m * w := Nat.mul_le_mul_right w (by omega)
        have h2 : (row + 1) * w = row * w + w := by ring
        omega
      rw [colfold_untouched off w m v _ (by omega)]
      exact ih b (by omega)
    · have : row + 1 = m + 1 := by omega
      rw [this]

/-- Value at a written pixel of the full nested row/column/lane store loop,
with an abstract per-pixel value function v. -/
theorem nested_foldl_get (off w h row col : ℕ) (k : Fin 4) (v : ℕ → ℕ → Fin 4 → ℕ)
    (buf : ℕ → ℕ) (q : ℕ) (hq : w = 4 * q) (hrow : row < h) (hcol : col ∈ cols w) :
    (List.foldl (fun b0 r' =>
        List.foldl (fun b2 col' =>
            List.foldl (fun b3 k' =>
                writePix b3 (off + r' * w + col' + (k' : ℕ)) (v r' col' k'))
              b2 [(0 : Fin 4), 1, 2, 3])
          b0 ((List.range ((w + 3) / 4)).map (fun gg => 4 * gg)))
      buf (List.range h)) (off + row * w + col + (k : ℕ)) = v row col k := by
  obtain ⟨g, hgn, hcolg⟩ : ∃ g, g < (w + 3) / 4 ∧ 4 * g = col := by
    simpa only [cols, List.mem_map, List.mem_range] using hcol
  have hcol4 : col + 4 ≤ w := by omega
  have hkv : (k : ℕ) < 4 := k.isLt
  rw [rowfold_peel off w row col k v (by omega) h buf (by omega)]
  rw [List.range_succ, List.foldl_append, List.foldl_cons, List.foldl_nil]
  rw [← hcolg]
  rw [colfold_peel off w row g k v ((w + 3) / 4) _ (by omega)]
  rw [List.range_succ, List.map_append, List.foldl_append, List.map_cons,
    List.map_nil, List.foldl_cons, List.foldl_nil]
  exact group_get _ (off + row * w + 4 * g) _ k

/-- The value render stores for lane k of the column group col of row row:
provided the width is a multiple of 4, the final buffer holds, at the slice
index off + row * w + col + k, exactly the palette color of that lane's
count.  Rows and column groups written later never overwrite it. -/
theorem render_pixel (buf : ℕ → ℕ) (off w h : ℕ) (ulre ulim lrre lrim : ℚ)
    (W H T limit : ℕ) (row col : ℕ) (k : Fin 4)
    (hw : 4 ∣ w) (hrow : row < h) (hcol : col ∈ cols w) :
    render buf off (w, h) ulre ulim lrre lrim W H T limit
        (off + row * w + col + (k : ℕ))
      = colorOf (groupCounts ulre ulim lrre lrim W H T limit row col k) := by
  obtain ⟨q, hq⟩ := hw
  exact nested_foldl_get off w h row col k
    (fun r c kk => colorOf (groupCounts ulre ulim lrre lrim W H T limit r c kk))
    buf q hq hrow hcol

/-- C3 (amended): a pixel whose point is bounded (lane count equal to the
limit) is not written the sentinel 0; it is written the same palette
interpolation as every other pixel, evaluated at the limit count — for the
repository's palette and limit 100 that color is 11062765 = 0x00A8CDED. -/
theorem c3_bounded_pixel_color (buf : ℕ → ℕ) (off w h : ℕ)
    (ulre ulim lrre lrim : ℚ) (W H T limit : ℕ) (row col : ℕ) (k : Fin 4)
    (hw : 4 ∣ w) (hrow : row < h) (hcol : col ∈ cols w)
    (hbounded : groupCounts ulre ulim lrre lrim W H T limit row col k = limit) :
    render buf off (w, h) ulre ulim lrre lrim W H T limit
        (off + row * w + col + (k : ℕ)) = colorOf limit ∧
    colorOf LIMIT = 11062765 := by
  constructor
  · rw [render_pixel buf off w h ulre ulim lrre lrim W H T limit row col k hw hrow hcol,
      hbounded]
  · decide

/-- Witness for C3 (amended): rendering the degenerate viewport (0,0)-(0,0)
on a 4-by-1 band with limit 100; every lane is the bounded point 0+0i. -/
theorem c3_witness :
    render (fun _ => 0) 0 (4, 1) 0 0 0 0 4 1 1 100
        (0 + 0 * 4 + 0 + ((0 : Fin 4) : ℕ)) = colorOf 100 ∧
    colorOf LIMIT = 11062765 :=
  c3_bounded_pixel_color (fun _ => 0) 0 4 1 0 0 0 0 4 1 1 100 0 0 0
    (by decide) (by decide) (by decide) (by decide)

/-- Counterexample to C3 as stated: rendering the degenerate viewport
(0,0)-(0,0) on a 4-by-1 band with the code's limit 100, pixel 0 is the
bounded point 0+0i (its lane count reaches the limit), and the framebuffer
value written for it is 11062765, not the sentinel 0. -/
theorem c3_counterexample :
    mandelbrot_vector (fun _ => 0) (fun _ => 0) 100 0 = 100 ∧
    render (fun _ => 0) 0 (4, 1) 0 0 0 0 4 1 1 100 0 = 11062765 ∧
    (11062765 : ℕ) ≠ 0 :=
  ⟨by decide, by decide, by decide⟩

/-- C4: a full render pass is not band-count invariant.  On bounds (4, 8)
with viewport corners 1 - 1i and 5 - 5i and the code's limit 100, the
buffer produced with T = 1 and the buffer produced with T = 8 differ at
pixel index 4 (row 1, column 0): render's height_step divides the band's
imaginary span by HEIGHT / NUM_THREADS instead of the band's own row count
rows_per_band = HEIGHT / NUM_THREADS + 1, so the sampled y coordinates, and
with them the escape counts and colors, depend on the band count. -/
theorem c4_band_count_changes_buffer :
    render_parallel 4 8 1 100 1 (-1) 5 (-5) 4 = 864398 ∧
    render_parallel 4 8 8 100 1 (-1) 5 (-5) 4 = 1892 ∧
    (864398 : ℕ) ≠ 1892 :=
  ⟨by decide, by decide, by decide⟩

end Mandelbrot
